import Mathlib

/-!
Shallow embedding of the forward-inference CNN pipeline of `CNN-golang/cnn.go`.

Cell values (Go `float64`) are modelled as rationals: every layer operation of
the pipeline uses only addition, multiplication, comparison and `max`, so the
idealized real/rational semantics is exact.  Nested Go slices become nested
lists; the index counters `Stride`, `Padding`, `PoolSize` (Go `int`, always
used with non-negative values by the pipeline) are modelled as `ℕ`, while the
output-dimension arithmetic, which can genuinely go negative in Go, is carried
out in `ℤ` with `Int.tdiv`, Go's truncated integer division.  Go's
fill-a-preallocated-slice loops are rendered as maps over `List.range`, and the
running accumulators (`sum` in the convolution, `maxVal` in the pooling layer)
as left folds.  Out-of-range reads, which the well-formedness hypotheses of the
theorems below rule out, are rendered total with default value `0` (resp. `[]`).
-/

namespace CNN

/-- A 1-D vector of cells (Go `[]float64`). -/
abbrev Vector1D := List ℚ

/-- A 2-D grid of cells (Go `[][]float64`), indexed row then column. -/
abbrev Tensor2D := List (List ℚ)

/-- A 3-D tensor (Go `[][][]float64`), indexed channel, row, column. -/
abbrev Tensor3D := List Tensor2D

/-- `relu` of `cnn.go`: `math.Max(0, x)`. -/
def relu (x : ℚ) : ℚ := max 0 x

/-- Reading `v[i]` from a Go slice; total with default `0`. -/
def idx1 (v : Vector1D) (i : ℕ) : ℚ := v.getD i 0

/-- Reading `m[i][j]` from a nested Go slice; total with default `0`. -/
def idx2 (m : Tensor2D) (i j : ℕ) : ℚ := (m.getD i []).getD j 0

/-- Reading `t[c][i][j]` from a nested Go slice; total with default `0`. -/
def idx3 (t : Tensor3D) (c i j : ℕ) : ℚ := ((t.getD c []).getD i []).getD j 0

/-- Reading `f[a][b][i][j]` from a four-level Go slice; total with default `0`. -/
def idx4 (f : List Tensor3D) (a b i j : ℕ) : ℚ :=
  (((f.getD a []).getD b []).getD i []).getD j 0

/-- The shared output-dimension arithmetic of `ConvLayer.Forward` (lines 33-34)
and `MaxPoolLayer.Forward` (lines 82-83):
`(inputSize + 2*padding - kernelSize)/stride + 1` over Go `int`, whose `/` is
truncated division (`Int.tdiv`). -/
def outDim (inputSize kernelSize stride padding : ℤ) : ℤ :=
  (inputSize + 2 * padding - kernelSize).tdiv stride + 1

/-- One row of the grid built by `pad2D`: the Go loop `copy(padded[i+padding][padding:], input[i])`
writes `min (row.length) (w + padding)` cells starting at column `padding` of a
zero row of length `w + 2*padding`; all remaining cells keep their zero value. -/
def padRow (w padding : ℕ) (row : List ℚ) : List ℚ :=
  List.replicate padding 0 ++ row.take (w + padding) ++
    List.replicate (w + 2 * padding - (padding + min row.length (w + padding))) 0

/-- `pad2D` of `cnn.go` (lines 151-165): `padding = 0` returns the input
unchanged; otherwise a `(h+2p) × (w+2p)` zero grid is allocated and row `i` of
the input is copied into row `i+p` starting at column `p`. -/
def pad2D (input : Tensor2D) (padding : ℕ) : Tensor2D :=
  if padding = 0 then input
  else
    let w := (input.getD 0 []).length
    List.replicate padding (List.replicate (w + 2 * padding) (0 : ℚ)) ++
      input.map (padRow w padding) ++
      List.replicate padding (List.replicate (w + 2 * padding) (0 : ℚ))

/-- `ConvLayer` of `cnn.go` (lines 16-21). -/
structure ConvLayer where
  Filters : List Tensor3D
  Biases : Vector1D
  Stride : ℕ
  Padding : ℕ

/-- The accumulator loop of `ConvLayer.Forward` (lines 54-63): starting from
`sum = 0`, add `padded[c][y*stride+ky][x*stride+kx] * Filters[f][c][ky][kx]`
over `c`, `ky`, `kx`. -/
def convAcc (padded : Tensor3D) (filters : List Tensor3D)
    (stride inChannels kernelH kernelW f y x : ℕ) : ℚ :=
  (List.range inChannels).foldl
    (fun s c =>
      (List.range kernelH).foldl
        (fun s2 ky =>
          (List.range kernelW).foldl
            (fun s3 kx =>
              s3 + idx3 padded c (y * stride + ky) (x * stride + kx) *
                idx4 filters f c ky kx)
            s2)
        s)
    0

/-- `ConvLayer.Forward` of `cnn.go` (lines 23-69): pad every input channel,
then fill `output[f][y][x] = relu(sum + Biases[f])`. -/
def ConvLayer.Forward (cl : ConvLayer) (input : Tensor3D) : Tensor3D :=
  let numFilters := cl.Filters.length
  let inChannels := input.length
  let kernelH := ((cl.Filters.getD 0 []).getD 0 []).length
  let kernelW := (((cl.Filters.getD 0 []).getD 0 []).getD 0 []).length
  let inputH := (input.getD 0 []).length
  let inputW := ((input.getD 0 []).getD 0 []).length
  let outH := (outDim inputH kernelH cl.Stride cl.Padding).toNat
  let outW := (outDim inputW kernelW cl.Stride cl.Padding).toNat
  let padded := input.map (fun ch => pad2D ch cl.Padding)
  (List.range numFilters).map fun f =>
    (List.range outH).map fun y =>
      (List.range outW).map fun x =>
        relu (convAcc padded cl.Filters cl.Stride inChannels kernelH kernelW f y x +
          idx1 cl.Biases f)

/-- `MaxPoolLayer` of `cnn.go` (lines 72-75). -/
structure MaxPoolLayer where
  PoolSize : ℕ
  Stride : ℕ

/-- The window maximum of `MaxPoolLayer.Forward` (lines 96-106): `maxVal`
starts at `input[c][yStart][xStart]` and is raised to every
`input[c][yStart+ky][xStart+kx]` that exceeds it. -/
def poolMax (input : Tensor3D) (poolSize stride c y x : ℕ) : ℚ :=
  (List.range poolSize).foldl
    (fun m ky =>
      (List.range poolSize).foldl
        (fun m2 kx => max m2 (idx3 input c (y * stride + ky) (x * stride + kx)))
        m)
    (idx3 input c (y * stride) (x * stride))

/-- `MaxPoolLayer.Forward` of `cnn.go` (lines 77-112). -/
def MaxPoolLayer.Forward (mpl : MaxPoolLayer) (input : Tensor3D) : Tensor3D :=
  let channels := input.length
  let h := (input.getD 0 []).length
  let w := ((input.getD 0 []).getD 0 []).length
  let outH := (outDim h mpl.PoolSize mpl.Stride 0).toNat
  let outW := (outDim w mpl.PoolSize mpl.Stride 0).toNat
  (List.range channels).map fun c =>
    (List.range outH).map fun y =>
      (List.range outW).map fun x => poolMax input mpl.PoolSize mpl.Stride c y x

/-- `FlattenLayer` of `cnn.go` (line 115); it carries no state. -/
structure FlattenLayer where

/-- `FlattenLayer.Forward` of `cnn.go` (lines 117-130): a zero buffer of length
`len(input) * len(input[0]) * len(input[0][0])` is allocated and the cells are
written sequentially in channel, row, column order; for a uniformly shaped
tensor this writes every slot exactly once. -/
def FlattenLayer.Forward (input : Tensor3D) : Vector1D :=
  let size := input.length * (input.getD 0 []).length * ((input.getD 0 []).getD 0 []).length
  (((input.map List.flatten).flatten) ++ List.replicate size 0).take size

/-- `DenseLayer` of `cnn.go` (lines 133-136). -/
structure DenseLayer where
  Weights : Tensor2D
  Biases : Vector1D

/-- `DenseLayer.Forward` of `cnn.go` (lines 138-148): `output[i]` starts at
`Biases[i]`, accumulates `Weights[i][j] * input[j]` over the indices `j` of the
input (the loop is `for j := range input`), then `relu` is applied. -/
def DenseLayer.Forward (dl : DenseLayer) (input : Vector1D) : Vector1D :=
  (List.range dl.Biases.length).map fun i =>
    relu ((List.range input.length).foldl
      (fun s j => s + idx2 dl.Weights i j * idx1 input j)
      (idx1 dl.Biases i))

/-- The inverse reshaping fixed by the flatten ordering contract: cell
`(ch, y, x)` of the rebuilt tensor reads flat index `ch*h*w + y*w + x`. -/
def unflatten (c h w : ℕ) (v : Vector1D) : Tensor3D :=
  (List.range c).map fun ch =>
    (List.range h).map fun y =>
      (List.range w).map fun x => idx1 v (ch * h * w + y * w + x)

/-- Elementwise non-negativity of a vector. -/
def NonnegV (v : Vector1D) : Prop := ∀ q ∈ v, 0 ≤ q

/-- Elementwise non-negativity of a 3-D tensor. -/
def NonnegT (t : Tensor3D) : Prop := ∀ ch ∈ t, ∀ r ∈ ch, ∀ q ∈ r, 0 ≤ q

/-! ### General helper lemmas about the list combinators used by the embedding -/

lemma getD_map {α β : Type} (f : α → β) (l : List α) (d : β) (d' : α) (i : ℕ)
    (hi : i < l.length) : (l.map f).getD i d = f (l.getD i d') := by
  rw [List.getD_eq_getElem _ _ (by simpa using hi), List.getD_eq_getElem _ _ hi,
    List.getElem_map]

lemma getD_map_range {α : Type} (g : ℕ → α) (d : α) {n i : ℕ} (hi : i < n) :
    ((List.range n).map g).getD i d = g i := by
  rw [getD_map g _ d 0 i (by simpa using hi),
    List.getD_eq_getElem _ _ (by simpa using hi), List.getElem_range]

lemma foldl_add_range (g : ℕ → ℚ) (a : ℚ) (n : ℕ) :
    (List.range n).foldl (fun s i => s + g i) a = a + ∑ i ∈ Finset.range n, g i := by
  induction n generalizing a with
  | zero => simp
  | succ n ih =>
    rw [List.range_succ, List.foldl_append, ih, Finset.sum_range_succ]
    simp [add_assoc]

lemma le_foldl_init (F : ℚ → ℕ → ℚ) (hF : ∀ m j, m ≤ F m j) (l : List ℕ) (a : ℚ) :
    a ≤ l.foldl F a := by
  induction l generalizing a with
  | nil => simp
  | cons x t ih => exact le_trans (hF a x) (ih (F a x))

lemma le_foldl_mem (F : ℚ → ℕ → ℚ) (hF : ∀ m j, m ≤ F m j) {i : ℕ} {v : ℚ}
    (hv : ∀ m, v ≤ F m i) (l : List ℕ) (hi : i ∈ l) (a : ℚ) : v ≤ l.foldl F a := by
  induction l generalizing a with
  | nil => cases hi
  | cons x t ih =>
    rcases List.mem_cons.mp hi with h | h
    · subst h
      exact le_trans (hv a) (le_foldl_init F hF t (F a i))
    · exact ih h (F a x)

lemma foldl_init_or (F : ℚ → ℕ → ℚ) (Q : ℕ → ℚ → Prop)
    (hF : ∀ m j, F m j = m ∨ Q j (F m j)) (l : List ℕ) (a : ℚ) :
    l.foldl F a = a ∨ ∃ j ∈ l, Q j (l.foldl F a) := by
  induction l generalizing a with
  | nil => left; rfl
  | cons x t ih =>
    rcases ih (F a x) with h | h
    · rcases hF a x with h2 | h2
      · left
        simpa [h2] using h
      · right
        refine ⟨x, List.mem_cons_self x t, ?_⟩
        rw [List.foldl_cons, h]
        exact h2
    · right
      obtain ⟨j, hj, hQ⟩ := h
      exact ⟨j, List.mem_cons_of_mem _ hj, hQ⟩

lemma flatten_length_uniform {α : Type} (L : List (List α)) (w : ℕ)
    (hw : ∀ r ∈ L, r.length = w) : L.flatten.length = L.length * w := by
  induction L with
  | nil => simp
  | cons r t ih =>
    simp only [List.flatten_cons, List.length_append, List.length_cons]
    rw [hw r (List.mem_cons_self r t), ih (fun s hs => hw s (List.mem_cons_of_mem r hs))]
    ring

lemma flatten_getD_uniform {α : Type} (d : α) (L : List (List α)) (w : ℕ)
    (hw : ∀ r ∈ L, r.length = w) (i j : ℕ) (hi : i < L.length) (hj : j < w) :
    L.flatten.getD (i * w + j) d = (L.getD i []).getD j d := by
  induction L generalizing i with
  | nil => simp at hi
  | cons r t ih =>
    have hr : r.length = w := hw r (List.mem_cons_self r t)
    cases i with
    | zero =>
      simp only [List.flatten_cons, Nat.zero_mul, Nat.zero_add]
      rw [List.getD_append _ _ _ j (by rw [hr]; exact hj)]
      rfl
    | succ i =>
      have hlen : r.length ≤ (i + 1) * w + j := by
        rw [hr]
        calc w ≤ (i + 1) * w := Nat.le_mul_of_pos_left w (Nat.succ_pos i)
        _ ≤ (i + 1) * w + j := Nat.le_add_right _ _
      simp only [List.flatten_cons]
      rw [List.getD_append_right _ _ _ _ hlen, hr]
      have harith : (i + 1) * w + j - w = i * w + j := by
        have : (i + 1) * w = i * w + w := by ring
        omega
      rw [harith]
      exact ih (fun s hs => hw s (List.mem_cons_of_mem r hs)) i (Nat.lt_of_succ_lt_succ hi)

lemma getD_replicate {α : Type} (a d : α) {n i : ℕ} (hi : i < n) :
    (List.replicate n a).getD i d = a := by
  rw [List.getD_eq_getElem _ _ (by simpa using hi)]
  exact List.getElem_replicate a _

lemma padRow_eq (w p : ℕ) (row : List ℚ) (hrow : row.length = w) :
    padRow w p row = List.replicate p 0 ++ row ++ List.replicate p 0 := by
  unfold padRow
  rw [List.take_of_length_le (by omega), hrow, min_eq_left (by omega)]
  congr 2
  omega

lemma pad2D_pos (input : Tensor2D) (p : ℕ) (hp : p ≠ 0) :
    pad2D input p =
      List.replicate p (List.replicate ((input.getD 0 []).length + 2 * p) (0 : ℚ)) ++
        input.map (padRow (input.getD 0 []).length p) ++
        List.replicate p (List.replicate ((input.getD 0 []).length + 2 * p) (0 : ℚ)) := by
  simp [pad2D, hp]

/-! ### Claim theorems -/

/-- C2: for stride ≥ 1, padding ≥ 0 and a non-negative numerator (equivalently a
resulting size ≥ 1), the output-dimension arithmetic shared by the convolution
and pooling layers equals `floor((inputSize + 2*padding - kernelSize)/stride) + 1`,
and `inputSize = kernelSize`, stride 1, padding 0 yields 1. -/
theorem outDim_floor_formula (inputSize kernelSize stride padding : ℤ)
    (hs : 1 ≤ stride) (hp : 0 ≤ padding)
    (hn : 0 ≤ inputSize + 2 * padding - kernelSize) :
    outDim inputSize kernelSize stride padding =
      (inputSize + 2 * padding - kernelSize).fdiv stride + 1 ∧
    1 ≤ outDim inputSize kernelSize stride padding ∧
    outDim kernelSize kernelSize 1 0 = 1 := by
  refine ⟨?_, ?_, ?_⟩
  · rw [outDim, Int.fdiv_eq_tdiv hn (by linarith)]
  · have := Int.tdiv_nonneg hn (by linarith : (0:ℤ) ≤ stride)
    rw [outDim]
    linarith
  · simp [outDim, Int.tdiv]

lemma poolMax_le (input : Tensor3D) (p s c y x ky kx : ℕ)
    (hky : ky < p) (hkx : kx < p) :
    idx3 input c (y * s + ky) (x * s + kx) ≤ poolMax input p s c y x := by
  rw [poolMax]
  refine le_foldl_mem
    (fun (m : ℚ) (ky' : ℕ) => (List.range p).foldl
      (fun m2 kx' => max m2 (idx3 input c (y * s + ky') (x * s + kx'))) m)
    (fun m j => le_foldl_init _ (fun m2 kx' => le_max_left _ _) _ m)
    (fun m => le_foldl_mem
      (fun m2 kx' => max m2 (idx3 input c (y * s + ky) (x * s + kx')))
      (fun m2 j => le_max_left _ _)
      (fun m2 => le_max_right _ _)
      _ (List.mem_range.mpr hkx) m)
    _ (List.mem_range.mpr hky) _

lemma convAcc_eq (padded : Tensor3D) (filters : List Tensor3D)
    (stride inChannels kernelH kernelW f y x : ℕ) :
    convAcc padded filters stride inChannels kernelH kernelW f y x =
      ∑ c ∈ Finset.range inChannels, ∑ ky ∈ Finset.range kernelH,
        ∑ kx ∈ Finset.range kernelW,
          idx3 padded c (y * stride + ky) (x * stride + kx) *
            idx4 filters f c ky kx := by
  unfold convAcc
  simp only [foldl_add_range, zero_add]

/-- C1: on an input whose channel count matches the filter bank's channel
dimension, every cell `(f, y, x)` of `ConvLayer.Forward` equals
`relu(Biases[f] + Σ_c Σ_ky Σ_kx padded[c][y*stride+ky][x*stride+kx] *
Filters[f][c][ky][kx])` with `padded` the zero-padded input channel, and the
output has one channel per filter. -/
theorem conv_forward_spec (cl : ConvLayer) (input : Tensor3D)
    (hch : input.length = (cl.Filters.getD 0 []).length)
    (f y x : ℕ) (hf : f < cl.Filters.length)
    (hy : y < (outDim (input.getD 0 []).length
      ((cl.Filters.getD 0 []).getD 0 []).length cl.Stride cl.Padding).toNat)
    (hx : x < (outDim ((input.getD 0 []).getD 0 []).length
      (((cl.Filters.getD 0 []).getD 0 []).getD 0 []).length cl.Stride cl.Padding).toNat) :
    (cl.Forward input).length = cl.Filters.length ∧
    idx3 (cl.Forward input) f y x =
      relu (idx1 cl.Biases f +
        ∑ c ∈ Finset.range input.length,
          ∑ ky ∈ Finset.range ((cl.Filters.getD 0 []).getD 0 []).length,
            ∑ kx ∈ Finset.range (((cl.Filters.getD 0 []).getD 0 []).getD 0 []).length,
              idx2 (pad2D (input.getD c []) cl.Padding)
                  (y * cl.Stride + ky) (x * cl.Stride + kx) *
                idx4 cl.Filters f c ky kx) := by
  constructor
  · simp [ConvLayer.Forward]
  · simp only [idx3, ConvLayer.Forward]
    rw [getD_map_range _ _ hf, getD_map_range _ _ hy, getD_map_range _ _ hx,
      convAcc_eq, add_comm]
    congr 1
    refine congrArg _ ?_
    refine Finset.sum_congr rfl fun c hc => ?_
    refine Finset.sum_congr rfl fun ky _ => ?_
    refine Finset.sum_congr rfl fun kx _ => ?_
    rw [idx3, idx2, getD_map _ _ _ [] c (by simpa using Finset.mem_range.mp hc)]

/-- C1 witness: a 1-filter 1-channel 1×1 convolution on a 1×1 input with
stride 1, padding 0. -/
theorem conv_forward_spec_w :
    ([(5:ℚ)] : Vector1D).length = 1 ∧
    ((ConvLayer.mk [[[[2]]]] [3] 1 0).Forward [[[5]]]).length = 1 ∧
    idx3 ((ConvLayer.mk [[[[2]]]] [3] 1 0).Forward [[[5]]]) 0 0 0 =
      relu (idx1 [3] 0 +
        ∑ c ∈ Finset.range 1, ∑ ky ∈ Finset.range 1, ∑ kx ∈ Finset.range 1,
          idx2 (pad2D [[(5:ℚ)]] 0) (0 * 1 + ky) (0 * 1 + kx) *
            idx4 [[[[2]]]] 0 c ky kx) := by
  have h := conv_forward_spec (ConvLayer.mk [[[[2]]]] [3] 1 0) [[[5]]]
    (by simp) 0 0 0 (by simp) (by with_unfolding_all decide) (by with_unfolding_all decide)
  exact ⟨rfl, h.1, by simpa using h.2⟩

/-- C5: for a grid with equal-length rows and padding `p`, `pad2D` returns a
`(h+2p) × (w+2p)` grid that is zero outside the interior and satisfies
`padded[p+i'][p+j'] = original[i'][j']` inside; `p = 0` is a no-op. -/
theorem pad2D_spec (input : Tensor2D) (w p : ℕ)
    (hw : ∀ r ∈ input, r.length = w) (hw0 : (input.getD 0 []).length = w) :
    (pad2D input p).length = input.length + 2 * p ∧
    (∀ r ∈ pad2D input p, r.length = w + 2 * p) ∧
    (∀ i j, i < input.length + 2 * p → j < w + 2 * p →
      idx2 (pad2D input p) i j =
        if p ≤ i ∧ i < p + input.length ∧ p ≤ j ∧ j < p + w then
          idx2 input (i - p) (j - p)
        else 0) ∧
    pad2D input 0 = input := by
  by_cases hp : p = 0
  · subst hp
    refine ⟨by simp [pad2D], ?_, ?_, rfl⟩
    · intro r hr
      have : r ∈ input := by simpa [pad2D] using hr
      simpa using hw r this
    · intro i j hi hj
      rw [if_pos ⟨Nat.zero_le i, by simpa using hi, Nat.zero_le j, by simpa using hj⟩]
      simp [pad2D]
  · have hpad := pad2D_pos input p hp
    rw [hw0] at hpad
    have hrowlen : ∀ s ∈ input.map (padRow w p), s.length = w + 2 * p := by
      intro s hs
      obtain ⟨r, hr, rfl⟩ := List.mem_map.mp hs
      rw [padRow_eq w p r (hw r hr)]
      simp [hw r hr]
      omega
    refine ⟨?_, ?_, ?_, by simp [pad2D]⟩
    · simp [hpad]
      omega
    · intro r hr
      rw [hpad] at hr
      rcases List.mem_append.mp hr with hr' | hr'
      · rcases List.mem_append.mp hr' with hr'' | hr''
        · rw [List.eq_of_mem_replicate hr'']
          simp
        · exact hrowlen r hr''
      · rw [List.eq_of_mem_replicate hr']
        simp
    · intro i j hi hj
      rw [idx2, hpad]
      by_cases hi1 : i < p
      · -- top zero border
        rw [List.getD_append _ _ _ i (by simp; omega),
          List.getD_append _ _ _ i (by simpa using hi1),
          getD_replicate _ _ hi1, getD_replicate _ _ hj,
          if_neg (by omega)]
      · by_cases hi2 : i < p + input.length
        · -- a padded interior row
          have hiIn : i - p < input.length := by omega
          have hrow : (input.map (padRow w p)).getD (i - p) [] =
              padRow w p (input.getD (i - p) []) :=
            getD_map _ _ _ [] _ (by simpa using hiIn)
          have hmem : input.getD (i - p) [] ∈ input := by
            rw [List.getD_eq_getElem _ _ hiIn]
            exact List.getElem_mem hiIn
          have hlen : (input.getD (i - p) []).length = w := hw _ hmem
          have hlen' : (input[i - p]?.getD []).length = w := by
            rw [← List.getD_eq_getElem?_getD]
            exact hlen
          rw [List.getD_append _ _ _ i (by simp; omega),
            List.getD_append_right _ _ _ _ (by simpa using le_of_not_lt hi1),
            List.length_replicate, hrow, padRow_eq w p _ hlen]
          by_cases hj1 : j < p
          · rw [List.getD_append _ _ _ j (by simp [hlen]; omega),
              List.getD_append _ _ _ j (by simpa using hj1),
              getD_replicate _ _ hj1, if_neg (by omega)]
          · by_cases hj2 : j < p + w
            · rw [List.getD_append _ _ _ j (by simp [hlen]; omega),
                List.getD_append_right _ _ _ _ (by simpa using le_of_not_lt hj1),
                List.length_replicate,
                if_pos ⟨le_of_not_lt hi1, hi2, le_of_not_lt hj1, hj2⟩]
              rfl
            · rw [List.getD_append_right _ _ _ _ (by simp [hlen]; omega),
                getD_replicate _ _ (by simp [hlen]; omega), if_neg (by omega)]
        · -- bottom zero border
          rw [List.getD_append_right _ _ _ _ (by simp; omega),
            getD_replicate _ _ (by simp; omega), getD_replicate _ _ hj,
            if_neg (by omega)]

/-- C5 witness: padding the 1×2 grid `[[1, 2]]` by 1. -/
theorem pad2D_spec_w :
    (∀ r ∈ [[(1:ℚ), 2]], r.length = 2) ∧
    (pad2D [[(1:ℚ), 2]] 1).length = 1 + 2 * 1 ∧
    idx2 (pad2D [[(1:ℚ), 2]] 1) 1 1 =
      (if 1 ≤ 1 ∧ 1 < 1 + 1 ∧ 1 ≤ 1 ∧ 1 < 1 + 2 then idx2 [[(1:ℚ), 2]] 0 0 else 0) ∧
    pad2D [[(1:ℚ), 2]] 0 = [[(1:ℚ), 2]] := by
  have h := pad2D_spec [[(1:ℚ), 2]] 2 1 (by simp) (by simp)
  exact ⟨by simp, h.1, h.2.2.1 1 1 (by norm_num) (by norm_num), h.2.2.2⟩

/-- C6: `MaxPoolLayer.Forward` preserves the channel count, and each output
cell `(c, y, x)` is the maximum of the `PoolSize × PoolSize` window of channel
`c` starting at `(y*Stride, x*Stride)` of the raw (unpadded) input: it is
attained by some window element and is `≥` every window element. -/
theorem maxpool_forward_spec (mpl : MaxPoolLayer) (input : Tensor3D)
    (hpool : 1 ≤ mpl.PoolSize) (c y x : ℕ) (hc : c < input.length)
    (hy : y < (outDim (input.getD 0 []).length mpl.PoolSize mpl.Stride 0).toNat)
    (hx : x < (outDim ((input.getD 0 []).getD 0 []).length mpl.PoolSize mpl.Stride 0).toNat) :
    (mpl.Forward input).length = input.length ∧
    (∃ ky < mpl.PoolSize, ∃ kx < mpl.PoolSize,
      idx3 (mpl.Forward input) c y x =
        idx3 input c (y * mpl.Stride + ky) (x * mpl.Stride + kx)) ∧
    (∀ ky < mpl.PoolSize, ∀ kx < mpl.PoolSize,
      idx3 input c (y * mpl.Stride + ky) (x * mpl.Stride + kx) ≤
        idx3 (mpl.Forward input) c y x) := by
  have hcell : idx3 (mpl.Forward input) c y x = poolMax input mpl.PoolSize mpl.Stride c y x := by
    simp only [idx3, MaxPoolLayer.Forward]
    rw [getD_map_range _ _ hc, getD_map_range _ _ hy, getD_map_range _ _ hx]
  refine ⟨by simp [MaxPoolLayer.Forward], ?_, ?_⟩
  · rw [hcell, poolMax]
    have h := foldl_init_or
      (fun m ky => (List.range mpl.PoolSize).foldl
        (fun m2 kx => max m2 (idx3 input c (y * mpl.Stride + ky) (x * mpl.Stride + kx))) m)
      (fun ky v => ∃ kx < mpl.PoolSize,
        v = idx3 input c (y * mpl.Stride + ky) (x * mpl.Stride + kx))
      (fun m j => by
        rcases foldl_init_or
            (fun m2 kx => max m2 (idx3 input c (y * mpl.Stride + j) (x * mpl.Stride + kx)))
            (fun kx v => v = idx3 input c (y * mpl.Stride + j) (x * mpl.Stride + kx))
            (fun m2 kx => by
              rcases le_or_lt (idx3 input c (y * mpl.Stride + j) (x * mpl.Stride + kx)) m2 with h | h
              · left; exact max_eq_left h
              · right; exact max_eq_right h.le)
            (List.range mpl.PoolSize) m with h | h
        · left; exact h
        · right
          obtain ⟨kx, hkx, hv⟩ := h
          exact ⟨kx, List.mem_range.mp hkx, hv⟩)
      (List.range mpl.PoolSize)
      (idx3 input c (y * mpl.Stride) (x * mpl.Stride))
    rcases h with h | h
    · exact ⟨0, hpool, 0, hpool, by simpa using h⟩
    · obtain ⟨ky, hky, kx, hkx, hv⟩ := h
      exact ⟨ky, List.mem_range.mp hky, kx, hkx, hv⟩
  · intro ky hky kx hkx
    rw [hcell]
    exact poolMax_le input mpl.PoolSize mpl.Stride c y x ky kx hky hkx

/-- C6 witness: 2×2 pooling with stride 2 on a 1-channel 2×2 input. -/
theorem maxpool_forward_spec_w :
    1 ≤ (2:ℕ) ∧
    ((MaxPoolLayer.mk 2 2).Forward [[[(1:ℚ), 2], [3, 4]]]).length = 1 ∧
    (∃ ky < 2, ∃ kx < 2,
      idx3 ((MaxPoolLayer.mk 2 2).Forward [[[(1:ℚ), 2], [3, 4]]]) 0 0 0 =
        idx3 [[[(1:ℚ), 2], [3, 4]]] 0 (0 * 2 + ky) (0 * 2 + kx)) ∧
    (∀ ky < 2, ∀ kx < 2,
      idx3 [[[(1:ℚ), 2], [3, 4]]] 0 (0 * 2 + ky) (0 * 2 + kx) ≤
        idx3 ((MaxPoolLayer.mk 2 2).Forward [[[(1:ℚ), 2], [3, 4]]]) 0 0 0) := by
  have h := maxpool_forward_spec (MaxPoolLayer.mk 2 2) [[[(1:ℚ), 2], [3, 4]]]
    (by norm_num) 0 0 0 (by norm_num)
    (by decide) (by decide)
  exact ⟨by norm_num, h.1, h.2.1, h.2.2⟩

/-- C7: on a uniformly shaped tensor of `c` channels, height `h`, width `w`,
`FlattenLayer.Forward` returns a vector of length `c*h*w` whose element at flat
index `ch*h*w + y*w + x` is `input[ch][y][x]`, and un-flattening with the known
shape round-trips to the original tensor. -/
theorem flatten_forward_spec (input : Tensor3D) (h w : ℕ)
    (hh : ∀ ch ∈ input, ch.length = h)
    (hw : ∀ ch ∈ input, ∀ r ∈ ch, r.length = w)
    (hh0 : (input.getD 0 []).length = h)
    (hw0 : ((input.getD 0 []).getD 0 []).length = w) :
    (FlattenLayer.Forward input).length = input.length * h * w ∧
    (∀ ch y x, ch < input.length → y < h → x < w →
      idx1 (FlattenLayer.Forward input) (ch * h * w + y * w + x) = idx3 input ch y x) ∧
    unflatten input.length h w (FlattenLayer.Forward input) = input := by
  have hrows : ∀ r ∈ input.map List.flatten, r.length = h * w := by
    intro r hr
    obtain ⟨ch, hch, rfl⟩ := List.mem_map.mp hr
    rw [flatten_length_uniform ch w (hw ch hch), hh ch hch]
  have hX : (input.map List.flatten).flatten.length = input.length * (h * w) := by
    have := flatten_length_uniform (input.map List.flatten) (h * w) hrows
    simpa using this
  have hFwd : FlattenLayer.Forward input = (input.map List.flatten).flatten := by
    simp only [FlattenLayer.Forward, hh0, hw0]
    rw [show input.length * h * w = (input.map List.flatten).flatten.length by
      rw [hX]; ring]
    exact List.take_left _ _
  have hidx : ∀ ch y x, ch < input.length → y < h → x < w →
      idx1 (FlattenLayer.Forward input) (ch * h * w + y * w + x) = idx3 input ch y x := by
    intro ch y x hch hy hx
    have hj : y * w + x < h * w := by
      calc y * w + x < y * w + w := by omega
      _ = (y + 1) * w := by ring
      _ ≤ h * w := Nat.mul_le_mul_right w hy
    have harith : ch * h * w + y * w + x = ch * (h * w) + (y * w + x) := by ring
    rw [hFwd, idx1, harith,
      flatten_getD_uniform 0 (input.map List.flatten) (h * w) hrows ch (y * w + x)
        (by simpa using hch) hj,
      getD_map _ _ _ [] ch hch]
    have hmem : input.getD ch [] ∈ input := by
      rw [List.getD_eq_getElem _ _ hch]
      exact List.getElem_mem hch
    rw [flatten_getD_uniform 0 (input.getD ch []) w (hw _ hmem) y x
      (by rw [hh _ hmem]; exact hy) hx]
    rfl
  refine ⟨by rw [hFwd, hX]; ring, hidx, ?_⟩
  refine List.ext_getElem (by simp [unflatten]) ?_
  intro ch h1 h2
  have hch : ch < input.length := by simpa [unflatten] using h1
  rw [show (unflatten input.length h w (FlattenLayer.Forward input))[ch] =
    (List.range h).map (fun y => (List.range w).map fun x =>
      idx1 (FlattenLayer.Forward input) (ch * h * w + y * w + x)) by
      simp only [unflatten]
      rw [List.getElem_map, List.getElem_range]]
  have hchmem : input[ch] ∈ input := List.getElem_mem hch
  refine List.ext_getElem (by simpa using (hh _ hchmem).symm) ?_
  intro y h3 h4
  have hy : y < h := by simpa using h3
  rw [List.getElem_map, List.getElem_range]
  have hrowmem : input[ch][y] ∈ input[ch] :=
    List.getElem_mem (by rw [hh _ hchmem]; exact hy)
  refine List.ext_getElem (by simpa using (hw _ hchmem _ hrowmem).symm) ?_
  intro x h5 h6
  have hx : x < w := by simpa using h5
  rw [List.getElem_map, List.getElem_range, hidx ch y x hch hy hx, idx3]
  have e1 : input.getD ch [] = input[ch] := List.getD_eq_getElem _ _ hch
  rw [e1]
  have e2 : input[ch].getD y [] = input[ch][y] :=
    List.getD_eq_getElem _ _ (lt_of_lt_of_eq hy (hh _ hchmem).symm)
  rw [e2]
  exact List.getD_eq_getElem _ _ (lt_of_lt_of_eq hx (hw _ hchmem _ hrowmem).symm)

/-- C7 witness: flattening a 2-channel 2×2 tensor and round-tripping. -/
theorem flatten_forward_spec_w :
    (∀ ch ∈ [[[(1:ℚ), 2], [3, 4]], [[5, 6], [7, 8]]], ch.length = 2) ∧
    (FlattenLayer.Forward [[[(1:ℚ), 2], [3, 4]], [[5, 6], [7, 8]]]).length = 2 * 2 * 2 ∧
    unflatten 2 2 2 (FlattenLayer.Forward [[[(1:ℚ), 2], [3, 4]], [[5, 6], [7, 8]]]) =
      [[[(1:ℚ), 2], [3, 4]], [[5, 6], [7, 8]]] := by
  have h := flatten_forward_spec [[[(1:ℚ), 2], [3, 4]], [[5, 6], [7, 8]]] 2 2
    (by decide) (by decide) (by decide) (by decide)
  exact ⟨by decide, h.1, h.2.2⟩

/-- C2 witness: the formula at inputSize 5, kernel 3, stride 2, padding 1. -/
theorem outDim_floor_formula_w :
    (1:ℤ) ≤ 2 ∧ (0:ℤ) ≤ 1 ∧ (0:ℤ) ≤ 5 + 2 * 1 - 3 ∧
    outDim 5 3 2 1 = (5 + 2 * 1 - 3 : ℤ).fdiv 2 + 1 ∧
    1 ≤ outDim 5 3 2 1 ∧ outDim 3 3 1 0 = 1 := by
  refine ⟨by norm_num, by norm_num, by norm_num, ?_⟩
  have h := outDim_floor_formula 5 3 2 1 (by norm_num) (by norm_num) (by norm_num)
  exact ⟨h.1, h.2.1, h.2.2⟩

/-- C8: for an input whose length equals the weight matrix's column count,
`DenseLayer.Forward` returns one entry per bias, with
`output[i] = relu(Biases[i] + Σ_j Weights[i][j] * input[j])`. -/
theorem dense_forward_spec (dl : DenseLayer) (input : Vector1D)
    (hlen : input.length = (dl.Weights.getD 0 []).length) (i : ℕ)
    (hi : i < dl.Biases.length) :
    (dl.Forward input).length = dl.Biases.length ∧
    idx1 (dl.Forward input) i =
      relu (idx1 dl.Biases i +
        ∑ j ∈ Finset.range input.length, idx2 dl.Weights i j * idx1 input j) := by
  constructor
  · simp [DenseLayer.Forward]
  · simp only [idx1, DenseLayer.Forward]
    rw [getD_map_range _ _ hi, foldl_add_range]

/-- C8 witness: a 2×2 identity weight matrix with zero biases on input `[3, 4]`. -/
theorem dense_forward_spec_w :
    ([(3:ℚ), 4] : Vector1D).length = (([[ (1:ℚ), 0], [0, 1]] : Tensor2D).getD 0 []).length ∧
    (0:ℕ) < 2 ∧
    ((DenseLayer.mk [[1, 0], [0, 1]] [0, 0]).Forward [3, 4]).length = 2 ∧
    idx1 ((DenseLayer.mk [[1, 0], [0, 1]] [0, 0]).Forward [3, 4]) 0 =
      relu (idx1 [0, 0] 0 +
        ∑ j ∈ Finset.range ([(3:ℚ), 4] : Vector1D).length,
          idx2 [[1, 0], [0, 1]] 0 j * idx1 [3, 4] j) := by
  have h := dense_forward_spec (DenseLayer.mk [[1, 0], [0, 1]] [0, 0]) [3, 4]
    (by decide) 0 (by decide)
  exact ⟨by decide, by decide, h.1, h.2⟩

/-- C9: one all-ones 3×3 filter with bias 0, stride 1, padding 1 on a 1-channel
all-ones 4×4 input yields one 4×4 channel with corners 4, edges 6, interior 9. -/
theorem conv_scenario_4x4 :
    (ConvLayer.mk [[List.replicate 3 (List.replicate 3 (1:ℚ))]] [0] 1 1).Forward
        [List.replicate 4 (List.replicate 4 (1:ℚ))] =
      [[[4, 6, 6, 4], [6, 9, 9, 6], [6, 9, 9, 6], [4, 6, 6, 4]]] := by
  with_unfolding_all rfl

/-- C3 (code bug): on shape-mismatched input neither layer fails; both produce
a silently truncated output.  A `DenseLayer` with one weight row `[1, 1]`
(two columns) fed the length-1 input `[5]` returns `[5]`, using only the first
weight column; a `ConvLayer` whose single filter has two channels (`[[2]]` and
`[[3]]`) fed a 1-channel input returns `[[[2]]]`, using only the first filter
channel. -/
theorem shape_mismatch_not_rejected :
    (DenseLayer.mk [[1, 1]] [0]).Forward [5] = [5] ∧
    (ConvLayer.mk [[[[2]], [[3]]]] [0] 1 0).Forward [[[1]]] = [[[2]]] := by
  constructor
  · with_unfolding_all rfl
  · with_unfolding_all rfl

/-- C4 (code bug): a pool size exceeding the input spatial dimension is not
rejected; `MaxPoolLayer.Forward` with pool size 3, stride 1 on a 1-channel
2×2 input computes output size `(2-3)/1 + 1 = 0` and silently returns a
1-channel tensor with zero rows, producing no error. -/
theorem invalid_config_not_rejected :
    (MaxPoolLayer.mk 3 1).Forward [[[(1:ℚ), 2], [3, 4]]] = [[]] := by
  with_unfolding_all rfl

lemma nonnegT_idx3 (t : Tensor3D) (ht : NonnegT t) (c i j : ℕ) : 0 ≤ idx3 t c i j := by
  rw [idx3]
  rcases lt_or_ge c t.length with hc | hc
  · have hch : t.getD c [] ∈ t := by
      rw [List.getD_eq_getElem _ _ hc]
      exact List.getElem_mem hc
    rcases lt_or_ge i (t.getD c []).length with hi | hi
    · have hr : (t.getD c []).getD i [] ∈ t.getD c [] := by
        rw [List.getD_eq_getElem _ _ hi]
        exact List.getElem_mem hi
      rcases lt_or_ge j ((t.getD c []).getD i []).length with hj | hj
      · have hq : ((t.getD c []).getD i []).getD j 0 ∈ (t.getD c []).getD i [] := by
          rw [List.getD_eq_getElem _ _ hj]
          exact List.getElem_mem hj
        exact ht _ hch _ hr _ hq
      · rw [List.getD_eq_default _ _ hj]
    · rw [List.getD_eq_default _ _ hi]
      simp
  · rw [List.getD_eq_default _ _ hc]
    simp

/-- C10: every cell produced by `ConvLayer.Forward` and `DenseLayer.Forward`
is non-negative (relu is applied to every output cell), and
`MaxPoolLayer.Forward` and `FlattenLayer.Forward` preserve elementwise
non-negativity. -/
theorem relu_pipeline_nonneg (cl : ConvLayer) (cin : Tensor3D)
    (dl : DenseLayer) (din : Vector1D) (mpl : MaxPoolLayer) (pin : Tensor3D)
    (tin : Tensor3D) (hpin : NonnegT pin) (htin : NonnegT tin) :
    NonnegT (cl.Forward cin) ∧ NonnegV (dl.Forward din) ∧
    NonnegT (mpl.Forward pin) ∧ NonnegV (FlattenLayer.Forward tin) := by
  refine ⟨?_, ?_, ?_, ?_⟩
  · intro ch hch r hr q hq
    simp only [ConvLayer.Forward] at hch
    obtain ⟨f, _, rfl⟩ := List.mem_map.mp hch
    obtain ⟨y, _, rfl⟩ := List.mem_map.mp hr
    obtain ⟨x, _, rfl⟩ := List.mem_map.mp hq
    exact le_max_left 0 _
  · intro q hq
    simp only [DenseLayer.Forward] at hq
    obtain ⟨i, _, rfl⟩ := List.mem_map.mp hq
    exact le_max_left 0 _
  · intro ch hch r hr q hq
    simp only [MaxPoolLayer.Forward] at hch
    obtain ⟨c, _, rfl⟩ := List.mem_map.mp hch
    obtain ⟨y, _, rfl⟩ := List.mem_map.mp hr
    obtain ⟨x, _, rfl⟩ := List.mem_map.mp hq
    rw [poolMax]
    refine le_trans (nonnegT_idx3 pin hpin c (y * mpl.Stride) (x * mpl.Stride)) ?_
    exact le_foldl_init _
      (fun m j => le_foldl_init _ (fun m2 kx' => le_max_left _ _) _ m) _ _
  · intro q hq
    simp only [FlattenLayer.Forward] at hq
    have hq' := List.mem_of_mem_take hq
    rcases List.mem_append.mp hq' with hmem | hmem
    · obtain ⟨row, hrow, hqrow⟩ := List.mem_flatten.mp hmem
      obtain ⟨ch, hchmem, rfl⟩ := List.mem_map.mp hrow
      obtain ⟨r, hrmem, hqr⟩ := List.mem_flatten.mp hqrow
      exact htin ch hchmem r hrmem q hqr
    · rw [List.eq_of_mem_replicate hmem]

/-- C10 witness: the four layers on small non-negative concrete inputs. -/
theorem relu_pipeline_nonneg_w :
    NonnegT [[[(3:ℚ)]]] ∧ NonnegT [[[(4:ℚ)]]] ∧
    NonnegT ((ConvLayer.mk [[[[1]]]] [0] 1 0).Forward [[[1]]]) ∧
    NonnegV ((DenseLayer.mk [[1]] [0]).Forward [2]) ∧
    NonnegT ((MaxPoolLayer.mk 1 1).Forward [[[(3:ℚ)]]]) ∧
    NonnegV (FlattenLayer.Forward [[[(4:ℚ)]]]) := by
  have hp : NonnegT [[[(3:ℚ)]]] := by
    intro ch hch r hr q hq
    rw [List.mem_singleton] at hch
    subst hch
    rw [List.mem_singleton] at hr
    subst hr
    rw [List.mem_singleton] at hq
    subst hq
    norm_num
  have ht : NonnegT [[[(4:ℚ)]]] := by
    intro ch hch r hr q hq
    rw [List.mem_singleton] at hch
    subst hch
    rw [List.mem_singleton] at hr
    subst hr
    rw [List.mem_singleton] at hq
    subst hq
    norm_num
  have h := relu_pipeline_nonneg (ConvLayer.mk [[[[1]]]] [0] 1 0) [[[1]]]
    (DenseLayer.mk [[1]] [0]) [2] (MaxPoolLayer.mk 1 1) [[[(3:ℚ)]]] [[[(4:ℚ)]]] hp ht
  exact ⟨hp, ht, h.1, h.2.1, h.2.2.1, h.2.2.2⟩

end CNN
